import Mathlib

/-!
A verification development for the snippet-ingestion repository.

Each Python component relevant to the verified properties is shallowly
embedded as executable Lean definitions, translated from the source:

* `Chunker` embeds `src/utils/chunker.py` (`split_text`, `_split_large_line`).
* `Status` embeds `src/worker/status.py` (the Redis-backed status store).
* `VectorWriter` embeds `src/vectordb/writer.py` (`SnippetVectorWriter.write`).
* `VectorReader` embeds `src/vectordb/reader.py` (the ingest-id discovery
  cascade and its scroll fallback).
* `Orchestrator` embeds `src/orchestration/extraction.py` (per-unit failure
  isolation and the semaphore concurrency discipline).

Python strings are modelled as `List Char`; Python integers as `Int` (or
`Nat` where the source value is manifestly a size); `None`-able values as
`Option`; raised exceptions as explicit error results.  Loops whose Python
form is `while`/`for` over indices are modelled with structural recursion,
with an explicit fuel argument where Python's loop variable does not
decrease structurally; every theorem that touches such a definition first
shows the fuel is sufficient.
-/

namespace Chunker

/-- Model of Python's `text.splitlines(keepends=True)` restricted to the
newline terminator `'\n'` (the source feeds it ordinary source-code text;
the exotic Unicode line terminators Python also recognises behave exactly
like `'\n'` for every property proved here).  Each produced line is
nonempty, and the lines concatenate back to the input. -/
def splitlines_keepends : List Char → List (List Char)
  | [] => []
  | c :: rest =>
    match splitlines_keepends rest with
    | [] => [[c]]
    | l :: ls => if c = '\n' then [c] :: l :: ls else (c :: l) :: ls

theorem splitlines_keepends_flatten (s : List Char) :
    (splitlines_keepends s).flatten = s := by
  induction s with
  | nil => rfl
  | cons c rest ih =>
    simp only [splitlines_keepends]
    cases h : splitlines_keepends rest with
    | nil =>
      simp only [List.flatten]
      rw [h] at ih
      simp at ih
      simp [ih]
    | cons l ls =>
      rw [h] at ih
      by_cases hc : c = '\n' <;> simp [hc, List.flatten] at ih ⊢ <;> simp [ih]

theorem splitlines_keepends_ne_nil (s : List Char) :
    ∀ l ∈ splitlines_keepends s, l ≠ [] := by
  induction s with
  | nil => intro l hl; simp [splitlines_keepends] at hl
  | cons c rest ih =>
    intro l hl
    simp only [splitlines_keepends] at hl
    cases h : splitlines_keepends rest with
    | nil => rw [h] at hl; simp at hl; simp [hl]
    | cons l0 ls =>
      rw [h] at hl
      by_cases hc : c = '\n'
      · simp [hc] at hl
        rcases hl with hl | hl | hl
        · simp [hl]
        · exact hl ▸ ih l0 (h ▸ List.mem_cons_self _ _)
        · exact ih l (h ▸ List.mem_cons_of_mem _ hl)
      · simp [hc] at hl
        rcases hl with hl | hl
        · simp [hl]
        · exact ih l (h ▸ List.mem_cons_of_mem _ hl)

/-- Fuel-driven worker for `split_large_line` below: one chunk of
`max_chunk_size` characters is peeled off per fuel step, mirroring one
iteration of `range(0, len(line), max_chunk_size)` in Python's
`_split_large_line`.  Fuel `line.length` always suffices when
`1 ≤ max_chunk_size` (each step consumes at least one character). -/
def split_large_line_go (max_chunk_size : Nat) : Nat → List Char → List (List Char)
  | _, [] => []
  | 0, _ => []
  | fuel + 1, l => l.take max_chunk_size :: split_large_line_go max_chunk_size fuel (l.drop max_chunk_size)

/-- Embedding of `_split_large_line(line, max_chunk_size)`
(src/utils/chunker.py): raw slicing of a line into pieces of at most
`max_chunk_size` characters.  (Python raises `ValueError` when the step is
0; the model is only ever used, and the theorems only ever stated, for a
positive threshold.) -/
def split_large_line (line : List Char) (max_chunk_size : Nat) : List (List Char) :=
  split_large_line_go max_chunk_size line.length line

theorem split_large_line_go_flatten (max_chunk_size : Nat) (hm : 1 ≤ max_chunk_size) :
    ∀ fuel l, l.length ≤ fuel →
      (split_large_line_go max_chunk_size fuel l).flatten = l := by
  intro fuel
  induction fuel with
  | zero =>
    intro l hl
    cases l with
    | nil => rfl
    | cons c cs => simp at hl
  | succ fuel ih =>
    intro l hl
    cases l with
    | nil => rfl
    | cons c cs =>
      simp only [split_large_line_go, List.flatten]
      have hdl : ((c :: cs).drop max_chunk_size).length ≤ fuel := by
        simp only [List.length_drop, List.length_cons]
        simp only [List.length_cons] at hl
        omega
      rw [ih _ hdl, List.take_append_drop]

theorem split_large_line_flatten (line : List Char) (max_chunk_size : Nat)
    (hm : 1 ≤ max_chunk_size) :
    (split_large_line line max_chunk_size).flatten = line :=
  split_large_line_go_flatten max_chunk_size hm line.length line (Nat.le_refl _)

theorem split_large_line_go_size (max_chunk_size : Nat) :
    ∀ fuel l, ∀ q ∈ split_large_line_go max_chunk_size fuel l,
      q.length ≤ max_chunk_size := by
  intro fuel
  induction fuel with
  | zero =>
    intro l q hq
    cases l <;> simp [split_large_line_go] at hq
  | succ fuel ih =>
    intro l q hq
    cases l with
    | nil => simp [split_large_line_go] at hq
    | cons c cs =>
      simp only [split_large_line_go, List.mem_cons] at hq
      rcases hq with hq | hq
      · rw [hq]; exact List.length_take_le _ _
      · exact ih _ q hq

/-- Outcome of one pass of the inner `for idx in range(start, len(lines))`
loop of `split_text` (src/utils/chunker.py), expressed relative to the
current `start` position (`k` is `idx - start`):
* `cut k` — the loop broke having chosen to emit `lines[start:start+k]`
  (skipped when it joins to the empty string) and resume at `start + k`;
  issued both by the size-overflow branch and by the oversized-line branch
  when a nonempty prefix precedes the oversized line.
* `bigConsume k` — an oversized line sits at offset `k` behind an
  all-empty prefix (`k = 0` for real line lists): the prefix joins to ""
  and is dropped, the line's raw slices are emitted, scanning resumes at
  `start + k + 1`.
* `exhausted` — the `for` loop ran off the end (`for … else` branch):
  the rest of the lines become the final chunk. -/
inductive ScanStep where
  | cut (k : Nat)
  | bigConsume (k : Nat)
  | exhausted
deriving DecidableEq, Repr

/-- Embedding of the inner `for` loop of `split_text`.  Arguments mirror
the Python locals: the unscanned suffix `lines[start+k:]`, the offset `k`
(= `idx - start`), `current_size`, `best_cut` (stored relative to `start`,
so Python's `best_cut and best_cut > start` becomes `0 < r`),
`best_cut_size` and `best_score` (both initialised to `-1`).  `pref_empty`
tracks whether `"".join(lines[start:start+k])` is empty, which is what the
truthiness test `if chunk:` in the oversized-line branch asks. -/
def scan_for_cut (max_chunk_size : Nat) (score_fn : List Char → List Char → Int) :
    List (List Char) → Nat → Nat → Bool → Option Nat → Int → Int → ScanStep
  | [], _, _, _, _, _, _ => .exhausted
  | line :: rest, k, current_size, pref_empty, best_cut, best_cut_size, best_score =>
    if max_chunk_size < line.length then
      (if 0 < k ∧ pref_empty = false then .cut k else .bigConsume k)
    else
      let cs' := current_size + line.length
      if cs' ≤ max_chunk_size then
        let next_line := rest.headD []
        let score := score_fn line next_line
        if best_score < score ∨ (score = best_score ∧ best_cut_size < (cs' : Int)) then
          scan_for_cut max_chunk_size score_fn rest (k + 1) cs'
            (pref_empty && line.isEmpty) (some (k + 1)) (cs' : Int) score
        else
          scan_for_cut max_chunk_size score_fn rest (k + 1) cs'
            (pref_empty && line.isEmpty) best_cut best_cut_size best_score
      else
        let c := match best_cut with
          | some r => if 0 < r then r else k
          | none => k
        .cut (if c = 0 then 1 else c)

/-- What the outer loop relies on about a scan outcome over
`rem = lines[start:]`: a `cut` never stalls (the resume point strictly
advances), and a `bigConsume` only ever drops a prefix that joins to the
empty string. -/
def scan_ok (rem : List (List Char)) : ScanStep → Prop
  | .exhausted => True
  | .cut c => 1 ≤ c ∧ rem ≠ []
  | .bigConsume c => (rem.take c).flatten = [] ∧ c < rem.length

theorem scan_for_cut_ok (max_chunk_size : Nat) (score_fn : List Char → List Char → Int)
    (rem : List (List Char)) :
    ∀ suf k current_size pref_empty best_cut best_cut_size best_score,
      suf = rem.drop k →
      (pref_empty = true ↔ (rem.take k).flatten = []) →
      scan_ok rem (scan_for_cut max_chunk_size score_fn suf k current_size pref_empty
        best_cut best_cut_size best_score) := by
  intro suf
  induction suf with
  | nil =>
    intro k cs pe bc bcs bs _ _
    simp [scan_for_cut, scan_ok]
  | cons line rest ih =>
    intro k cs pe bc bcs bs hsuf hpe
    have hk : k < rem.length := by
      by_contra hge
      have : rem.drop k = [] := List.drop_eq_nil_iff.mpr (by omega)
      rw [this] at hsuf
      exact List.cons_ne_nil _ _ hsuf
    have hdec : rem.drop k = rem[k] :: rem.drop (k + 1) := List.drop_eq_getElem_cons hk
    rw [hdec] at hsuf
    have hline : line = rem[k] := (List.cons.injEq _ _ _ _ ▸ hsuf).1
    have hrest : rest = rem.drop (k + 1) := (List.cons.injEq _ _ _ _ ▸ hsuf).2
    have htake : rem.take (k + 1) = rem.take k ++ [line] := by
      rw [List.take_succ, List.getElem?_eq_getElem hk, hline]
      rfl
    have hpe' : (pe && line.isEmpty) = true ↔ (rem.take (k + 1)).flatten = [] := by
      rw [htake]
      simp [List.flatten_append, List.isEmpty_iff, hpe]
    simp only [scan_for_cut]
    by_cases hbig : max_chunk_size < line.length
    · rw [if_pos hbig]
      by_cases hcond : 0 < k ∧ pe = false
      · rw [if_pos hcond]
        refine ⟨hcond.1, ?_⟩
        intro hnil
        rw [hnil] at hk
        simp at hk
      · rw [if_neg hcond]
        refine ⟨?_, hk⟩
        rcases Decidable.not_and_iff_or_not.mp hcond with h0 | hpt
        · have : k = 0 := by omega
          simp [this]
        · have : pe = true := by
            cases pe
            · exact absurd rfl hpt
            · rfl
          exact hpe.mp this
    · rw [if_neg hbig]
      by_cases hfit : cs + line.length ≤ max_chunk_size
      · rw [if_pos hfit]
        by_cases hupd : bs < score_fn line (rest.headD []) ∨
            (score_fn line (rest.headD []) = bs ∧ bcs < ((cs + line.length : Nat) : Int))
        · rw [if_pos hupd]
          exact ih (k + 1) _ _ _ _ _ hrest hpe'
        · rw [if_neg hupd]
          exact ih (k + 1) _ _ _ _ _ hrest hpe'
      · rw [if_neg hfit]
        constructor
        · split <;> omega
        · intro hnil
          rw [hnil] at hk
          simp at hk

/-- Embedding of the outer `while start < len(lines)` loop of `split_text`,
interpreting successive `scan_for_cut` outcomes on the remaining lines
`rem = lines[start:]`.  The loop strictly advances `start` on every
iteration, so fuel `lines.length + 1` always suffices; the fuel-exhausted
branch is unreachable (proved in `split_text_loop_flatten`). -/
def split_text_loop (max_chunk_size : Nat) (score_fn : List Char → List Char → Int) :
    Nat → List (List Char) → List (List Char)
  | 0, _ => []
  | fuel + 1, rem =>
    match scan_for_cut max_chunk_size score_fn rem 0 0 true none (-1) (-1) with
    | .exhausted =>
      let chunk := rem.flatten
      if chunk = [] then [] else [chunk]
    | .cut c =>
      let chunk := (rem.take c).flatten
      (if chunk = [] then [] else [chunk])
        ++ split_text_loop max_chunk_size score_fn fuel (rem.drop c)
    | .bigConsume c =>
      split_large_line ((rem.drop c).headD []) max_chunk_size
        ++ split_text_loop max_chunk_size score_fn fuel (rem.drop (c + 1))

/-- Embedding of the defensive normalisation pass at the end of
`split_text` (`# ensure chunk sizes are within limit`): every oversized
piece is re-sliced with `_split_large_line`. -/
def normalize_chunks (max_chunk_size : Nat) : List (List Char) → List (List Char)
  | [] => []
  | piece :: rest =>
    (if piece.length ≤ max_chunk_size then [piece]
     else split_large_line piece max_chunk_size) ++ normalize_chunks max_chunk_size rest

/-- Embedding of `split_text(text, max_chunk_size=…, boundary_score_fn=…)`
(src/utils/chunker.py).  The scoring function is kept as the parameter it
is in the source; every theorem below holds for an arbitrary scoring
function, hence in particular for the source's `default_boundary_score`. -/
def split_text (text : List Char) (max_chunk_size : Nat)
    (boundary_score_fn : List Char → List Char → Int) : List (List Char) :=
  if text.length ≤ max_chunk_size then [text]
  else
    let lines := splitlines_keepends text
    normalize_chunks max_chunk_size
      (split_text_loop max_chunk_size boundary_score_fn (lines.length + 1) lines)

theorem split_text_loop_flatten (max_chunk_size : Nat)
    (score_fn : List Char → List Char → Int) (hm : 1 ≤ max_chunk_size) :
    ∀ fuel rem, rem.length < fuel →
      (split_text_loop max_chunk_size score_fn fuel rem).flatten = rem.flatten := by
  intro fuel
  induction fuel with
  | zero => intro rem h; omega
  | succ fuel ih =>
    intro rem hlen
    have hok := scan_for_cut_ok max_chunk_size score_fn rem rem 0 0 true none (-1) (-1)
      (by simp) (by simp)
    simp only [split_text_loop]
    cases hscan : scan_for_cut max_chunk_size score_fn rem 0 0 true none (-1) (-1) with
    | exhausted =>
      by_cases hnil : rem.flatten = [] <;> simp [hnil]
    | cut c =>
      rw [hscan] at hok
      obtain ⟨hc1, hne⟩ := hok
      have hrem : 0 < rem.length := List.length_pos.mpr hne
      have hdrop : (rem.drop c).length < fuel := by
        rw [List.length_drop]; omega
      rw [List.flatten_append, ih _ hdrop]
      have hflat : ∀ chunk : List Char,
          (if chunk = [] then ([] : List (List Char)) else [chunk]).flatten = chunk := by
        intro chunk
        by_cases h : chunk = [] <;> simp [h]
      rw [hflat]
      conv_rhs => rw [← List.take_append_drop c rem]
      rw [List.flatten_append]
    | bigConsume c =>
      rw [hscan] at hok
      obtain ⟨hpre, hclt⟩ := hok
      have hdec : rem.drop c = rem[c] :: rem.drop (c + 1) := List.drop_eq_getElem_cons hclt
      have hdrop : (rem.drop (c + 1)).length < fuel := by
        rw [List.length_drop]; omega
      rw [List.flatten_append, ih _ hdrop, hdec]
      simp only [List.headD_cons]
      rw [split_large_line_flatten _ _ hm]
      conv_rhs => rw [← List.take_append_drop c rem]
      rw [List.flatten_append, hpre, List.nil_append, hdec, List.flatten_cons]

theorem normalize_chunks_flatten (max_chunk_size : Nat) (hm : 1 ≤ max_chunk_size) :
    ∀ pieces : List (List Char),
      (normalize_chunks max_chunk_size pieces).flatten = pieces.flatten := by
  intro pieces
  induction pieces with
  | nil => rfl
  | cons piece rest ih =>
    simp only [normalize_chunks, List.flatten_append, ih, List.flatten_cons]
    by_cases hp : piece.length ≤ max_chunk_size
    · simp [hp]
    · simp only [if_neg hp]
      rw [split_large_line_flatten _ _ hm]

theorem normalize_chunks_size (max_chunk_size : Nat) :
    ∀ pieces : List (List Char), ∀ q ∈ normalize_chunks max_chunk_size pieces,
      q.length ≤ max_chunk_size := by
  intro pieces
  induction pieces with
  | nil => intro q hq; simp [normalize_chunks] at hq
  | cons piece rest ih =>
    intro q hq
    simp only [normalize_chunks, List.mem_append] at hq
    rcases hq with hq | hq
    · by_cases hp : piece.length ≤ max_chunk_size
      · rw [if_pos hp] at hq
        simp at hq
        rw [hq]
        exact hp
      · rw [if_neg hp] at hq
        exact split_large_line_go_size max_chunk_size _ _ q hq
    · exact ih q hq

/-- C1: Chunker round-trip — for every input text and every positive
threshold, concatenating the chunks returned by `split_text`, in order,
reproduces the input text exactly (for any boundary-scoring function, in
particular the source's default). -/
theorem chunker_roundtrip (boundary_score_fn : List Char → List Char → Int)
    (text : List Char) (max_chunk_size : Nat) (hpos : 1 ≤ max_chunk_size) :
    (split_text text max_chunk_size boundary_score_fn).flatten = text := by
  unfold split_text
  by_cases h : text.length ≤ max_chunk_size
  · simp [h]
  · rw [if_neg h]
    rw [normalize_chunks_flatten _ hpos,
        split_text_loop_flatten _ _ hpos _ _ (Nat.lt_succ_self _),
        splitlines_keepends_flatten]

/-- Witness for C1 at a concrete input: text "ab\ncd\nef" with threshold 4. -/
theorem chunker_roundtrip_witness :
    1 ≤ 4 ∧
      (split_text ("ab\ncd\nef".toList) 4 (fun _ _ => 0)).flatten = "ab\ncd\nef".toList :=
  ⟨by decide, chunker_roundtrip (fun _ _ => 0) ("ab\ncd\nef".toList) 4 (by decide)⟩

/-- C2: Chunker size bound — every chunk returned by `split_text` has
length at most the (positive) threshold, and input whose length is at or
under the threshold comes back as the single unmodified chunk. -/
theorem chunker_size_bound (boundary_score_fn : List Char → List Char → Int)
    (text : List Char) (max_chunk_size : Nat) (hpos : 1 ≤ max_chunk_size) :
    (∀ chunk ∈ split_text text max_chunk_size boundary_score_fn,
        chunk.length ≤ max_chunk_size) ∧
      (text.length ≤ max_chunk_size →
        split_text text max_chunk_size boundary_score_fn = [text]) := by
  constructor
  · intro chunk hc
    unfold split_text at hc
    by_cases h : text.length ≤ max_chunk_size
    · rw [if_pos h] at hc
      simp at hc
      rw [hc]
      exact h
    · rw [if_neg h] at hc
      exact normalize_chunks_size _ _ chunk hc
  · intro h
    simp [split_text, h]

/-- Witness for C2 at a concrete input: text "abcdefgh" with threshold 3
(oversized input), checking the bound half of the conjunction applies. -/
theorem chunker_size_bound_witness :
    1 ≤ 3 ∧
      ((∀ chunk ∈ split_text ("abcdefgh".toList) 3 (fun _ _ => 0), chunk.length ≤ 3) ∧
        (("abcdefgh".toList).length ≤ 3 →
          split_text ("abcdefgh".toList) 3 (fun _ _ => 0) = ["abcdefgh".toList])) :=
  ⟨by decide, chunker_size_bound (fun _ _ => 0) ("abcdefgh".toList) 3 (by decide)⟩

example : split_text ("ab\ncd".toList) 3 (fun _ _ => 0) =
    ["ab\n".toList, "cd".toList] := by decide

example : split_text ("ab".toList) 10 (fun _ _ => 0) = ["ab".toList] := by decide

end Chunker

namespace Status

/-! Embedding of `src/worker/status.py`.

The Redis substrate is modelled as the pair of structures the store
actually uses: the JSON-serialised record per key (`data`), and the
`repos:index` sorted set (`index`, kept as a duplicate-free id list; the
creation-time scores only affect listing order, which no claim touches).
Timestamps (`created_at`/`updated_at`) are wall-clock values irrelevant to
every claim and are not modelled.  JSON round-trips Python strings, `int`s
and `None` losslessly, so serialising a `RepoRecord` stores its fields
verbatim; what a *stored* progress field can hold after arbitrary writes is
kept general (`StoredProgress`), which is exactly what `_coerce_progress`
defends against on the read side. -/

/-- A progress value as found in the stored JSON document: absent/null, an
integer, or something `int()` cannot parse (Python raises `TypeError` /
`ValueError`, which `_coerce_progress` catches). -/
inductive StoredProgress where
  | none
  | int (i : Int)
  | unparseable
deriving DecidableEq, Repr

/-- Embedding of the module-level `_coerce_progress` helper
(src/worker/status.py): `None` stays `None`, unparseable values become
`None`, integers are clamped into `[0, 100]` via `max(0, min(100, p))`. -/
def _coerce_progress : StoredProgress → Option Int
  | .none => Option.none
  | .int i => Option.some (max 0 (min 100 i))
  | .unparseable => Option.none

/-- The in-memory `RepoRecord` dataclass (timestamps omitted, see above). -/
structure RepoRecord where
  id : String
  url : String
  status : String
  repo_name : Option String
  process_message : Option String
  fail_reason : Option String
  progress : Option Int
deriving DecidableEq, Repr

/-- The JSON document `_write_record` stores for a record key. -/
structure StoredRecord where
  id : String
  url : String
  status : String
  repo_name : Option String
  process_message : Option String
  fail_reason : Option String
  progress : StoredProgress
deriving DecidableEq, Repr

def STATUS_PENDING : String := "pending"
def STATUS_PROCESSING : String := "processing"
def STATUS_DONE : String := "done"
def STATUS_FAILED : String := "failed"

/-- `RepoRecord.to_dict` followed by `json.dumps` — every field serialises
verbatim (an `int` progress stores as that integer, `None` as null). -/
def RepoRecord.to_stored (r : RepoRecord) : StoredRecord :=
  { id := r.id
    url := r.url
    status := r.status
    repo_name := r.repo_name
    process_message := r.process_message
    fail_reason := r.fail_reason
    progress := match r.progress with
      | Option.none => StoredProgress.none
      | Option.some i => StoredProgress.int i }

/-- `RepoRecord.from_dict` on a parsed stored document: all fields are read
back verbatim except `progress`, which goes through `_coerce_progress`. -/
def RepoRecord.from_stored (s : StoredRecord) : RepoRecord :=
  { id := s.id
    url := s.url
    status := s.status
    repo_name := s.repo_name
    process_message := s.process_message
    fail_reason := s.fail_reason
    progress := _coerce_progress s.progress }

/-- The Redis state the store manipulates: record documents keyed by repo
id, plus the `repos:index` id set. -/
structure Store where
  data : String → Option StoredRecord
  index : List String

/-- Truthiness of an optional-string keyword argument (`if message:` /
`if repo_name:` in the transition methods): present and nonempty. -/
def truthy : Option String → Bool
  | Option.none => false
  | Option.some s => !s.isEmpty

/-- `RepoStatusStore.get`: read the key, deserialise.  (The `json.loads` /
`KeyError` defence paths concern corrupt documents, which the stored-record
model rules out by construction.) -/
def get (s : Store) (repo_id : String) : Option RepoRecord :=
  (s.data repo_id).map RepoRecord.from_stored

/-- `RepoStatusStore._write_record`: store the serialised record under its
key and add the id to the `repos:index` set (`zadd` inserts the member if
absent; a repeated `zadd` only refreshes the score). -/
def _write_record (s : Store) (r : RepoRecord) : Store :=
  { data := fun k => if k = r.id then Option.some r.to_stored else s.data k
    index := if r.id ∈ s.index then s.index else r.id :: s.index }

/-- `RepoStatusStore._delete_record`: delete the key and `zrem` the id. -/
def _delete_record (s : Store) (repo_id : String) : Store :=
  { data := fun k => if k = repo_id then Option.none else s.data k
    index := s.index.erase repo_id }

/-- `max(0, min(100, progress))` as it appears in `mark_processing`,
`update_progress` and `_coerce_progress`. -/
def clamp_progress (p : Int) : Int := max 0 (min 100 p)

/-- `RepoStatusStore.mark_processing` (raises `KeyError` → `Option.none`
when the record does not exist). -/
def mark_processing (s : Store) (repo_id : String)
    (message : Option String := Option.none)
    (repo_name : Option String := Option.none)
    (progress : Option Int := Option.none) : Option (RepoRecord × Store) :=
  (get s repo_id).map fun record =>
    let record := { record with
      status := STATUS_PROCESSING
      process_message := if truthy message then message else record.process_message
      repo_name := if truthy repo_name then repo_name else record.repo_name
      fail_reason := Option.none
      progress := match progress with
        | Option.none => record.progress
        | Option.some p => Option.some (clamp_progress p) }
    (record, _write_record s record)

/-- `RepoStatusStore.update_progress` (message is a required argument and
is assigned unconditionally). -/
def update_progress (s : Store) (repo_id : String) (message : String)
    (progress : Option Int := Option.none)
    (repo_name : Option String := Option.none) : Option (RepoRecord × Store) :=
  (get s repo_id).map fun record =>
    let record := { record with
      status := STATUS_PROCESSING
      process_message := Option.some message
      repo_name := if truthy repo_name then repo_name else record.repo_name
      progress := match progress with
        | Option.none => record.progress
        | Option.some p => Option.some (clamp_progress p) }
    (record, _write_record s record)

/-- `RepoStatusStore.mark_completed`: set status/progress on the in-memory
record, then delete the stored record (the returned record is the mutated
in-memory one; the store no longer holds the id). -/
def mark_completed (s : Store) (repo_id : String)
    (message : Option String := Option.none)
    (repo_name : Option String := Option.none) : Option (RepoRecord × Store) :=
  (get s repo_id).map fun record =>
    let record := { record with
      status := STATUS_DONE
      process_message := if truthy message then message else record.process_message
      repo_name := if truthy repo_name then repo_name else record.repo_name
      fail_reason := Option.none
      progress := Option.some 100 }
    (record, _delete_record s record.id)

/-- `RepoStatusStore.mark_failed`: status `failed`, reason stored verbatim,
progress set to null, record written back (not deleted). -/
def mark_failed (s : Store) (repo_id : String) (reason : String)
    (message : Option String := Option.none)
    (repo_name : Option String := Option.none) : Option (RepoRecord × Store) :=
  (get s repo_id).map fun record =>
    let record := { record with
      status := STATUS_FAILED
      fail_reason := Option.some reason
      process_message := if truthy message then message else record.process_message
      repo_name := if truthy repo_name then repo_name else record.repo_name
      progress := Option.none }
    (record, _write_record s record)

/-- `RepoStatusStore.list_records`: walk the index ids (`zrevrange`) and
`get` each, keeping the records that deserialise. -/
def list_records (s : Store) : List RepoRecord :=
  s.index.filterMap (get s)

/-- Every record the store writes is stored under its own id
(`_write_record` keys by `record.id`), so stored documents satisfy
`st.id = repo_id` for the key they sit under; the state-machine theorems
take that well-formedness as a hypothesis. -/
def sample_stored : StoredRecord :=
  { id := "job1", url := "https://example.com/repo.git", status := "processing"
    repo_name := Option.none, process_message := Option.none
    fail_reason := Option.none, progress := .int 0 }

def sample_store : Store :=
  { data := fun k => if k = "job1" then Option.some sample_stored else Option.none
    index := ["job1"] }

/-- A store whose underlying document carries an out-of-range progress
value, as could be left by an older writer or manual edit. -/
def sample_stored_oob : StoredRecord :=
  { sample_stored with progress := .int 1000 }

def sample_store_oob : Store :=
  { data := fun k => if k = "job1" then Option.some sample_stored_oob else Option.none
    index := ["job1"] }

theorem clamp_progress_bounds (p : Int) :
    0 ≤ clamp_progress p ∧ clamp_progress p ≤ 100 := by
  unfold clamp_progress
  omega

/-- Reading back an id right after `_write_record` stored a record under
that id yields the deserialised form of what was written. -/
theorem get_after_write (s : Store) (rec : RepoRecord) (repo_id : String)
    (hid : rec.id = repo_id) :
    get (_write_record s rec) repo_id =
      Option.some (RepoRecord.from_stored rec.to_stored) := by
  subst hid
  simp [get, _write_record]

/-- C3: Status state machine postconditions — for a record id present in
the store (under its own id), `mark_completed` then `get` is not-found;
`mark_failed` then `get` yields status `failed`, null progress and the
verbatim reason; and an out-of-range progress handed to `mark_processing`
or `update_progress` is clamped into `[0, 100]`. -/
theorem status_state_machine (s : Store) (repo_id : String) (st : StoredRecord)
    (h : s.data repo_id = Option.some st) (hid : st.id = repo_id) :
    (∀ message repo_name r s1,
        mark_completed s repo_id message repo_name = Option.some (r, s1) →
        get s1 repo_id = Option.none) ∧
      (∀ reason message repo_name r s2,
        mark_failed s repo_id reason message repo_name = Option.some (r, s2) →
        ∃ rec, get s2 repo_id = Option.some rec ∧ rec.status = STATUS_FAILED ∧
          rec.progress = Option.none ∧ rec.fail_reason = Option.some reason) ∧
      (∀ p message repo_name r s3,
        mark_processing s repo_id message repo_name (Option.some p) = Option.some (r, s3) →
        ∃ rec, get s3 repo_id = Option.some rec ∧
          rec.progress = Option.some (clamp_progress p) ∧
          0 ≤ clamp_progress p ∧ clamp_progress p ≤ 100) ∧
      (∀ p message repo_name r s4,
        update_progress s repo_id message (Option.some p) repo_name = Option.some (r, s4) →
        ∃ rec, get s4 repo_id = Option.some rec ∧
          rec.progress = Option.some (clamp_progress p) ∧
          0 ≤ clamp_progress p ∧ clamp_progress p ≤ 100) := by
  have hget : get s repo_id = Option.some (RepoRecord.from_stored st) := by
    simp [get, h]
  refine ⟨?_, ?_, ?_, ?_⟩
  · intro message repo_name r s1 hc
    simp only [mark_completed, hget, Option.map_some', Option.some.injEq, Prod.mk.injEq] at hc
    obtain ⟨_, hs1⟩ := hc
    subst hs1
    simp [get, _delete_record, RepoRecord.from_stored, hid]
  · intro reason message repo_name r s2 hc
    simp only [mark_failed, hget, Option.map_some', Option.some.injEq, Prod.mk.injEq] at hc
    obtain ⟨_, hs2⟩ := hc
    subst hs2
    exact ⟨_, get_after_write s _ repo_id hid, rfl, rfl, rfl⟩
  · intro p message repo_name r s3 hc
    simp only [mark_processing, hget, Option.map_some', Option.some.injEq, Prod.mk.injEq] at hc
    obtain ⟨_, hs3⟩ := hc
    subst hs3
    refine ⟨_, get_after_write s _ repo_id hid, ?_,
      (clamp_progress_bounds p).1, (clamp_progress_bounds p).2⟩
    show _coerce_progress (StoredProgress.int (clamp_progress p)) =
      Option.some (clamp_progress p)
    simp only [_coerce_progress, clamp_progress, Option.some.injEq]
    omega
  · intro p message repo_name r s4 hc
    simp only [update_progress, hget, Option.map_some', Option.some.injEq, Prod.mk.injEq] at hc
    obtain ⟨_, hs4⟩ := hc
    subst hs4
    refine ⟨_, get_after_write s _ repo_id hid, ?_,
      (clamp_progress_bounds p).1, (clamp_progress_bounds p).2⟩
    show _coerce_progress (StoredProgress.int (clamp_progress p)) =
      Option.some (clamp_progress p)
    simp only [_coerce_progress, clamp_progress, Option.some.injEq]
    omega

/-- Witness for C3 on a concrete single-record store. -/
theorem status_state_machine_witness :
    sample_store.data "job1" = Option.some sample_stored ∧
      (∀ message repo_name r s1,
        mark_completed sample_store "job1" message repo_name = Option.some (r, s1) →
        get s1 "job1" = Option.none) :=
  ⟨by decide,
    (status_state_machine sample_store "job1" sample_stored (by decide) (by decide)).1⟩

theorem _coerce_progress_range (v : StoredProgress) :
    _coerce_progress v = Option.none ∨
      ∃ p, _coerce_progress v = Option.some p ∧ 0 ≤ p ∧ p ≤ 100 := by
  cases v with
  | none => exact Or.inl rfl
  | int i =>
    refine Or.inr ⟨max 0 (min 100 i), rfl, ?_, ?_⟩ <;> omega
  | unparseable => exact Or.inl rfl

/-- C10: read-side progress clamping — any record coming out of `get` or
`list_records`, whatever the underlying stored document held, has progress
that is either null or an integer in `[0, 100]` (`_coerce_progress` clamps
out-of-range stored values and maps unparseable ones to null). -/
theorem read_side_progress_clamped (s : Store) (repo_id : String) (rec : RepoRecord)
    (h : get s repo_id = Option.some rec ∨ rec ∈ list_records s) :
    rec.progress = Option.none ∨
      ∃ p, rec.progress = Option.some p ∧ 0 ≤ p ∧ p ≤ 100 := by
  have hst : ∃ st : StoredRecord, rec = RepoRecord.from_stored st := by
    rcases h with h | h
    · unfold get at h
      cases hd : s.data repo_id with
      | none => rw [hd] at h; simp at h
      | some st =>
        rw [hd] at h
        simp only [Option.map_some', Option.some.injEq] at h
        exact ⟨st, h.symm⟩
    · unfold list_records at h
      obtain ⟨i, _, hi⟩ := List.mem_filterMap.mp h
      unfold get at hi
      cases hd : s.data i with
      | none => rw [hd] at hi; simp at hi
      | some st =>
        rw [hd] at hi
        simp only [Option.map_some', Option.some.injEq] at hi
        exact ⟨st, hi.symm⟩
  obtain ⟨st, hrec⟩ := hst
  rw [hrec]
  exact _coerce_progress_range st.progress

/-- Witness for C10 on a store holding an out-of-range stored progress
(1000): the record read back is clamped. -/
theorem read_side_progress_clamped_witness :
    (get sample_store_oob "job1" =
        Option.some (RepoRecord.from_stored sample_stored_oob) ∨
      RepoRecord.from_stored sample_stored_oob ∈ list_records sample_store_oob) ∧
      ((RepoRecord.from_stored sample_stored_oob).progress = Option.none ∨
        ∃ p, (RepoRecord.from_stored sample_stored_oob).progress = Option.some p ∧
          0 ≤ p ∧ p ≤ 100) :=
  ⟨Or.inl (by decide),
    read_side_progress_clamped sample_store_oob "job1" _ (Or.inl (by decide))⟩

/-- The store state after `update_progress(progress=50)` has run on
`sample_store` (whose record sits at progress 0). -/
def store_after_50 : Store :=
  ((update_progress sample_store "job1" "halfway" (Option.some 50)).map Prod.snd).getD
    sample_store

/-- Counterexample to C4 as stated: a run consisting of the two
`update_progress` transitions with supplied progress 50 then 30 (no
intervening failure) leaves the record's progress at 30 < 50 — the store
assigns the clamped supplied value without enforcing monotonicity. -/
theorem progress_monotonicity_counterexample :
    ((update_progress sample_store "job1" "halfway" (Option.some 50)).map
        fun rs => rs.1.progress) = Option.some (Option.some 50) ∧
      ((update_progress store_after_50 "job1" "rollback" (Option.some 30)).map
        fun rs => rs.1.progress) = Option.some (Option.some 30) ∧
      ¬ (50 : Int) ≤ 30 := by
  refine ⟨by decide, by decide, by decide⟩

/-- A progress-touching transition inside one run: `mark_processing` or
`update_progress` (the operations named by the claim). -/
inductive RunOp where
  | proc (message repo_name : Option String) (progress : Option Int)
  | upd (message : String) (progress : Option Int) (repo_name : Option String)

def apply_run_op (s : Store) (repo_id : String) : RunOp → Option (RepoRecord × Store)
  | .proc m n p => mark_processing s repo_id m n p
  | .upd m p n => update_progress s repo_id m p n

def run_op_progress : RunOp → Option Int
  | .proc _ _ p => p
  | .upd _ p _ => p

/-- A record whose progress field is already clamped (which is true of
every record produced by `RepoRecord.from_stored`) serialises and
deserialises to itself. -/
theorem from_stored_to_stored (r : RepoRecord)
    (hq : ∀ v, r.progress = Option.some v → clamp_progress v = v) :
    RepoRecord.from_stored r.to_stored = r := by
  cases r with
  | mk id url status rn pm fr prog =>
    cases prog with
    | none => rfl
    | some v =>
      have hv : clamp_progress v = v := hq v rfl
      show RepoRecord.mk id url status rn pm fr (Option.some (clamp_progress v)) =
        RepoRecord.mk id url status rn pm fr (Option.some v)
      rw [hv]

theorem _coerce_progress_clamped (stored : StoredProgress) (v : Int)
    (h : _coerce_progress stored = Option.some v) : clamp_progress v = v := by
  cases stored with
  | none => simp [_coerce_progress] at h
  | int i =>
    simp only [_coerce_progress, Option.some.injEq] at h
    unfold clamp_progress
    omega
  | unparseable => simp [_coerce_progress] at h

/-- C4 (amended): each `mark_processing`/`update_progress` transition sets
progress to exactly the clamp of the supplied value, or leaves it
unchanged when none is supplied; consequently, within a run, progress never
decreases across a transition whose supplied value clamps to at least the
current progress, and no such transition ever resets a non-null progress to
null (only `mark_failed` writes a null progress). -/
theorem progress_update_semantics (s : Store) (repo_id : String) (st : StoredRecord)
    (h : s.data repo_id = Option.some st) (hid : st.id = repo_id)
    (op : RunOp) (r : RepoRecord) (s' : Store)
    (happ : apply_run_op s repo_id op = Option.some (r, s')) :
    r.progress = (match run_op_progress op with
      | Option.none => (RepoRecord.from_stored st).progress
      | Option.some p => Option.some (clamp_progress p)) ∧
      get s' repo_id = Option.some r ∧
      (∀ v, (RepoRecord.from_stored st).progress = Option.some v →
        ∃ v', r.progress = Option.some v' ∧
          (∀ p, run_op_progress op = Option.some p →
            v ≤ clamp_progress p → v ≤ v')) := by
  have hget : get s repo_id = Option.some (RepoRecord.from_stored st) := by
    simp [get, h]
  have hold : ∀ v, (RepoRecord.from_stored st).progress = Option.some v →
      clamp_progress v = v := by
    intro v hv
    exact _coerce_progress_clamped st.progress v hv
  cases op with
  | proc m n p0 =>
    simp only [apply_run_op, mark_processing, hget, Option.map_some', Option.some.injEq,
      Prod.mk.injEq] at happ
    obtain ⟨hr, hs⟩ := happ
    subst hs
    subst hr
    cases p0 with
    | none =>
      refine ⟨rfl, ?_, ?_⟩
      · rw [get_after_write s _ repo_id hid, from_stored_to_stored]
        intro v hv
        exact hold v hv
      · intro v hv
        exact ⟨v, hv, fun p hp _ => by cases hp⟩
    | some q =>
      refine ⟨rfl, ?_, ?_⟩
      · rw [get_after_write s _ repo_id hid, from_stored_to_stored]
        intro v hv
        simp only [Option.some.injEq] at hv
        subst hv
        unfold clamp_progress
        omega
      · intro v hv
        refine ⟨clamp_progress q, rfl, ?_⟩
        intro p hp hle
        simp only [run_op_progress, Option.some.injEq] at hp
        subst hp
        exact hle
  | upd m p0 n =>
    simp only [apply_run_op, update_progress, hget, Option.map_some', Option.some.injEq,
      Prod.mk.injEq] at happ
    obtain ⟨hr, hs⟩ := happ
    subst hs
    subst hr
    cases p0 with
    | none =>
      refine ⟨rfl, ?_, ?_⟩
      · rw [get_after_write s _ repo_id hid, from_stored_to_stored]
        intro v hv
        exact hold v hv
      · intro v hv
        exact ⟨v, hv, fun p hp _ => by cases hp⟩
    | some q =>
      refine ⟨rfl, ?_, ?_⟩
      · rw [get_after_write s _ repo_id hid, from_stored_to_stored]
        intro v hv
        simp only [Option.some.injEq] at hv
        subst hv
        unfold clamp_progress
        omega
      · intro v hv
        refine ⟨clamp_progress q, rfl, ?_⟩
        intro p hp hle
        simp only [run_op_progress, Option.some.injEq] at hp
        subst hp
        exact hle

def c4_op : RunOp := .upd "surge" (Option.some 150) Option.none

def c4_fallback : RepoRecord × Store :=
  ({ id := "", url := "", status := "", repo_name := Option.none,
     process_message := Option.none, fail_reason := Option.none,
     progress := Option.none },
   { data := fun _ => Option.none, index := [] })

def c4_result : RepoRecord × Store :=
  (apply_run_op sample_store "job1" c4_op).getD c4_fallback

/-- Witness for the amended C4 at a concrete input: an `update_progress`
with supplied value 150 on a record at progress 0 lands exactly on the
clamp, 100. -/
theorem progress_update_semantics_witness :
    sample_store.data "job1" = Option.some sample_stored ∧
      (c4_result.1.progress = (match run_op_progress c4_op with
        | Option.none => (RepoRecord.from_stored sample_stored).progress
        | Option.some p => Option.some (clamp_progress p)) ∧
        get c4_result.2 "job1" = Option.some c4_result.1 ∧
        (∀ v, (RepoRecord.from_stored sample_stored).progress = Option.some v →
          ∃ v', c4_result.1.progress = Option.some v' ∧
            (∀ p, run_op_progress c4_op = Option.some p →
              v ≤ clamp_progress p → v ≤ v'))) :=
  ⟨by decide,
    progress_update_semantics sample_store "job1" sample_stored (by decide) (by decide)
      c4_op c4_result.1 c4_result.2 rfl⟩

end Status

namespace VectorWriter

/-! Embedding of `SnippetVectorWriter.write` (src/vectordb/writer.py).

The embedding collaborator is an external service; it enters the model as
the function argument `embed` (the source's `embedder.embed`).  Vector
numeric content is never inspected by `write` beyond list length, so float
entries are modelled as integers (`Vec`).  The Qdrant collection enters the
model as the id-keyed stub the spec's tests describe: `None` while the
collection does not exist, otherwise a list of points keyed by point id,
with `upsert` overwriting the point stored under an existing id
(per-point id-keyed upsert is Qdrant's documented semantics).
`_ensure_payload_indexes` only creates secondary lookup structures and
never changes stored points, so it is a no-op on this state. -/

/-- The `Snippet` pydantic model (src/snippet/model.py). -/
structure Snippet where
  title : String
  description : String
  language : String
  code : String
  path : String
  repo : Option String
deriving DecidableEq, Repr

/-- Embedding vectors: numeric content opaque to `write`, only length is
ever inspected. -/
abbrev Vec := List Int

/-- `SnippetVectorWriter._embedding_input`: `f"{title}\n\n{description}"`. -/
def _embedding_input (snippet : Snippet) : String :=
  snippet.title ++ "\n\n" ++ snippet.description

/-- Modelled from the spec: `_embedding_key` is
`hashlib.sha256(embedding_input.encode()).hexdigest()`; the standard
library's SHA-256 is not part of this repository and is modelled as an
abstract deterministic function of the input string (only determinism is
ever used). -/
def _embedding_key (embedding_input : String) : String :=
  "sha256:" ++ embedding_input

/-- Modelled from the spec: `_point_id` is
`str(uuid.uuid5(uuid.NAMESPACE_URL, embedding_input))`; the standard
library's deterministic name-based UUID is not part of this repository and
is modelled as an abstract deterministic function of the input string
(only determinism — same input, same id — is ever used). -/
def _point_id (embedding_input : String) : String :=
  "uuid5:" ++ embedding_input

/-- The payload `_build_payload` constructs: the snippet's fields
(`model_dump`), with `language` lowered when truthy, plus
`embedding_input` and `embedding_key`. -/
structure Payload where
  title : String
  description : String
  language : String
  code : String
  path : String
  repo : Option String
  embedding_input : String
  embedding_key : String
deriving DecidableEq, Repr

def _build_payload (snippet : Snippet) (embedding_input embedding_key : String) :
    Payload :=
  { title := snippet.title
    description := snippet.description
    language := if snippet.language.isEmpty then snippet.language
      else snippet.language.toLower
    code := snippet.code
    path := snippet.path
    repo := snippet.repo
    embedding_input := embedding_input
    embedding_key := embedding_key }

/-- `models.PointStruct(id=…, vector=…, payload=…)`. -/
structure PointStruct where
  id : String
  vector : Vec
  payload : Payload
deriving DecidableEq, Repr

/-- The stub vector index: `Option.none` while the collection has not been
created. -/
structure IndexState where
  collection : Option (List (String × PointStruct))
deriving DecidableEq, Repr

/-- Id-keyed point upsert: overwrite the point under an existing id,
append otherwise. -/
def upsert_point (coll : List (String × PointStruct)) (p : PointStruct) :
    List (String × PointStruct) :=
  if coll.any (fun e => e.1 = p.id) then
    coll.map (fun e => if e.1 = p.id then (p.id, p) else e)
  else coll ++ [(p.id, p)]

def upsert_points (coll : List (String × PointStruct)) (ps : List PointStruct) :
    List (String × PointStruct) :=
  ps.foldl upsert_point coll

/-- `_ensure_collection`: create the collection when absent (the vector
size only parameterises the index configuration, not this state);
`_ensure_payload_indexes` adds no points. -/
def _ensure_collection (ix : IndexState) : IndexState :=
  match ix.collection with
  | Option.none => ⟨Option.some []⟩
  | Option.some c => ⟨Option.some c⟩

/-- One entry of the `for snippet, vector, embedding_input in zip(…)` body:
assemble the `PointStruct` for a snippet. -/
def build_point (snippet : Snippet) (vector : Vec) (embedding_input : String) :
    PointStruct :=
  { id := _point_id embedding_input
    vector := vector
    payload := _build_payload snippet embedding_input (_embedding_key embedding_input) }

def zip_with3 {α β γ δ : Type} (f : α → β → γ → δ) :
    List α → List β → List γ → List δ
  | a :: as, b :: bs, c :: cs => f a b c :: zip_with3 f as bs cs
  | _, _, _ => []

/-- Fuel-driven embedding of the batching loop
`for start in range(0, len(snippet_list), batch_size)` of `write`: each
fuel step processes one batch (`[start : start + batch_size]` slices of the
three parallel lists), skips empty point batches (`if not points:
continue`), otherwise upserts and adds `len(points)` to `total_written`.
Fuel `snippet_list.length` suffices for a positive batch size. -/
def upsert_batches_go (batch_size : Nat) :
    Nat → List (String × PointStruct) → List Snippet → List Vec → List String →
      List (String × PointStruct) × Nat
  | _, coll, [], _, _ => (coll, 0)
  | 0, coll, _, _, _ => (coll, 0)
  | fuel + 1, coll, snips, vecs, ins =>
    let points := zip_with3 build_point (snips.take batch_size) (vecs.take batch_size)
      (ins.take batch_size)
    if points.isEmpty then
      upsert_batches_go batch_size fuel coll (snips.drop batch_size)
        (vecs.drop batch_size) (ins.drop batch_size)
    else
      let coll' := upsert_points coll points
      let rest := upsert_batches_go batch_size fuel coll' (snips.drop batch_size)
        (vecs.drop batch_size) (ins.drop batch_size)
      (rest.1, points.length + rest.2)

/-- Embedding of `SnippetVectorWriter.write(snippets)`: returns the number
of points written (`total_written`) together with the index state after the
upserts.  `embed` is the embedding collaborator; `upsert_batch_size` is
`db_config.upsert_batch_size` (any Python int — `write` floors it at 1). -/
def write (embed : List String → List Vec) (upsert_batch_size : Int)
    (ix : IndexState) (snippets : List Snippet) : Nat × IndexState :=
  if snippets.isEmpty then (0, ix)
  else
    let embedding_inputs := snippets.map _embedding_input
    let vectors := embed embedding_inputs
    let tr :=
      if vectors.length ≠ snippets.length then
        let limit := min snippets.length vectors.length
        (snippets.take limit, vectors.take limit, embedding_inputs.take limit)
      else (snippets, vectors, embedding_inputs)
    let snippet_list := tr.1
    let vectors := tr.2.1
    let embedding_inputs := tr.2.2
    if vectors.isEmpty then (0, ix)
    else
      let ix := _ensure_collection ix
      let batch_size := (max 1 upsert_batch_size).toNat
      let res := upsert_batches_go batch_size snippet_list.length
        (ix.collection.getD []) snippet_list vectors embedding_inputs
      (res.2, ⟨Option.some res.1⟩)

theorem zip_with3_length {α β γ δ : Type} (f : α → β → γ → δ) :
    ∀ (as : List α) (bs : List β) (cs : List γ),
      (zip_with3 f as bs cs).length = min as.length (min bs.length cs.length) := by
  intro as
  induction as with
  | nil => intro bs cs; cases bs <;> cases cs <;> simp [zip_with3]
  | cons a as ih =>
    intro bs cs
    cases bs with
    | nil => simp [zip_with3]
    | cons b bs =>
      cases cs with
      | nil => simp [zip_with3]
      | cons c cs =>
        simp only [zip_with3, List.length_cons, ih]
        omega

/-- Every batch contributes exactly its (nonempty) length to
`total_written`, so the loop writes one point per surviving snippet. -/
theorem upsert_batches_go_total (batch_size : Nat) (hbs : 1 ≤ batch_size) :
    ∀ fuel (snips : List Snippet) (vecs : List Vec) (ins : List String) coll,
      snips.length ≤ fuel → vecs.length = snips.length → ins.length = snips.length →
      (upsert_batches_go batch_size fuel coll snips vecs ins).2 = snips.length := by
  intro fuel
  induction fuel with
  | zero =>
    intro snips vecs ins coll hf _ _
    cases snips with
    | nil => rfl
    | cons _ _ => simp at hf
  | succ fuel ih =>
    intro snips vecs ins coll hf hv hi
    cases snips with
    | nil => rfl
    | cons s ss =>
      have hpl : (zip_with3 build_point ((s :: ss).take batch_size)
          (vecs.take batch_size) (ins.take batch_size)).length =
          min batch_size (s :: ss).length := by
        rw [zip_with3_length, List.length_take, List.length_take, List.length_take,
          hv, hi]
        omega
      have hnem : (zip_with3 build_point ((s :: ss).take batch_size)
          (vecs.take batch_size) (ins.take batch_size)).isEmpty = false := by
        rw [List.isEmpty_eq_false_iff_exists_mem]
        have : 0 < (zip_with3 build_point ((s :: ss).take batch_size)
            (vecs.take batch_size) (ins.take batch_size)).length := by
          rw [hpl]
          simp only [List.length_cons]
          omega
        obtain ⟨p, hp⟩ := List.exists_mem_of_length_pos this
        exact ⟨p, hp⟩
      simp only [upsert_batches_go, hnem, Bool.false_eq_true, if_false]
      have hrec := ih ((s :: ss).drop batch_size) (vecs.drop batch_size)
        (ins.drop batch_size) (upsert_points coll (zip_with3 build_point
          ((s :: ss).take batch_size) (vecs.take batch_size) (ins.take batch_size)))
        (by rw [List.length_drop]; simp only [List.length_cons] at hf ⊢; omega)
        (by rw [List.length_drop, List.length_drop, hv])
        (by rw [List.length_drop, List.length_drop, hi])
      rw [hrec, hpl, List.length_drop]
      simp only [List.length_cons]
      omega

/-- C7: Writer partial-embedding truncation — `write` upserts and returns
exactly `min(snippet count, vector count)` points: when the embedding
collaborator returns fewer vectors than snippets both lists are truncated
to the shorter length and the write proceeds (without raising), and when no
vectors come back it returns 0. -/
theorem writer_partial_embedding_truncation (embed : List String → List Vec)
    (upsert_batch_size : Int) (ix : IndexState) (snippets : List Snippet) :
    (write embed upsert_batch_size ix snippets).1 =
      min snippets.length (embed (snippets.map _embedding_input)).length := by
  have hbs : 1 ≤ (max 1 upsert_batch_size).toNat := by omega
  unfold write
  cases hsn : snippets with
  | nil => simp
  | cons s0 ss =>
    have hne : (s0 :: ss).isEmpty = false := rfl
    simp only [hne, Bool.false_eq_true, if_false]
    by_cases hlen : (embed ((s0 :: ss).map _embedding_input)).length ≠ (s0 :: ss).length
    · rw [if_pos hlen]
      dsimp only
      by_cases hz : (List.take ((s0 :: ss).length ⊓
          (embed (List.map _embedding_input (s0 :: ss))).length)
          (embed (List.map _embedding_input (s0 :: ss)))).isEmpty = true
      · rw [if_pos hz]
        rw [List.isEmpty_iff] at hz
        have h0 := congrArg List.length hz
        rw [List.length_take] at h0
        simp only [List.length_nil] at h0
        show 0 = _
        omega
      · rw [if_neg hz]
        dsimp only
        rw [upsert_batches_go_total _ hbs]
        · rw [List.length_take]
          omega
        · exact Nat.le_refl _
        · rw [List.length_take, List.length_take]
          omega
        · rw [List.length_take, List.length_take, List.length_map]
    · rw [if_neg hlen]
      dsimp only
      push_neg at hlen
      by_cases hz : (embed (List.map _embedding_input (s0 :: ss))).isEmpty = true
      · rw [if_pos hz]
        rw [List.isEmpty_iff] at hz
        have h0 := congrArg List.length hz
        simp only [List.length_nil] at h0
        show 0 = _
        omega
      · rw [if_neg hz]
        dsimp only
        rw [upsert_batches_go_total _ hbs]
        · omega
        · exact Nat.le_refl _
        · exact hlen
        · exact List.length_map _ _
theorem write_singleton (embed : List String → List Vec) (bs : Int) (ix : IndexState)
    (x : Snippet) (v : Vec) (he : embed [_embedding_input x] = [v]) :
    write embed bs ix [x] =
      (1, ⟨Option.some (upsert_point ((_ensure_collection ix).collection.getD [])
        (build_point x v (_embedding_input x)))⟩) := by
  have hbs : 1 ≤ (max 1 bs).toNat := by omega
  unfold write
  have hne : ([x] : List Snippet).isEmpty = false := rfl
  simp only [hne, Bool.false_eq_true, if_false, List.map_cons, List.map_nil, he]
  rw [if_neg (by simp)]
  rw [if_neg (by simp)]
  have htake : ∀ {α : Type} (a : α), List.take (max 1 bs).toNat [a] = [a] := by
    intro α a
    exact List.take_of_length_le (by simp)
  have hdrop : ∀ {α : Type} (a : α), List.drop (max 1 bs).toNat [a] = [] := by
    intro α a
    exact List.drop_eq_nil_of_le (by simp)
  simp only [List.length_cons, List.length_nil, Nat.zero_add]
  rw [upsert_batches_go]
  · simp only [htake, hdrop]
    rfl
  all_goals simp

/-- C5: Vector point identity stability — the point id is a deterministic
function of the embedding input (title + description), so two snippets
with identical title and description get the same point id, and writing
one then the other (each with a working single-vector embedding call) into
an initially absent collection leaves exactly one stored point: the second
write upserts over the first id instead of adding a point. -/
theorem vector_point_identity (s t : Snippet)
    (embed1 embed2 : List String → List Vec) (bs1 bs2 : Int) (v1 v2 : Vec)
    (h1 : t.title = s.title) (h2 : t.description = s.description)
    (he1 : embed1 [_embedding_input s] = [v1])
    (he2 : embed2 [_embedding_input t] = [v2]) :
    _point_id (_embedding_input t) = _point_id (_embedding_input s) ∧
      ∃ pts, (write embed2 bs2 (write embed1 bs1 ⟨Option.none⟩ [s]).2 [t]).2.collection =
        Option.some pts ∧ pts.length = 1 := by
  have hinput : _embedding_input t = _embedding_input s := by
    unfold _embedding_input
    rw [h1, h2]
  have hid : (build_point t v2 (_embedding_input t)).id =
      (build_point s v1 (_embedding_input s)).id := by
    unfold build_point _point_id
    rw [hinput]
  refine ⟨by rw [hinput], ?_⟩
  rw [write_singleton embed1 bs1 _ s v1 he1]
  rw [write_singleton embed2 bs2 _ t v2 he2]
  refine ⟨_, rfl, ?_⟩
  show (upsert_point (upsert_point [] (build_point s v1 (_embedding_input s)))
      (build_point t v2 (_embedding_input t))).length = 1
  rw [show upsert_point [] (build_point s v1 (_embedding_input s)) =
    [((build_point s v1 (_embedding_input s)).id,
      build_point s v1 (_embedding_input s))] from rfl]
  have hcond : ([((build_point s v1 (_embedding_input s)).id,
      build_point s v1 (_embedding_input s))].any
      (fun e => e.1 = (build_point t v2 (_embedding_input t)).id)) = true := by
    simp [hid]
  unfold upsert_point
  rw [if_pos hcond]
  simp

/-- A concrete snippet for the C5 witness. -/
def sample_snippet : Snippet :=
  { title := "Parse INI files", description := "Reads key-value config"
    language := "Python", code := "def parse(): ...", path := "src/a.py"
    repo := Option.none }

/-- The same title and description carried by a different snippet record
(different code/path), as after a re-ingest. -/
def sample_snippet_reingested : Snippet :=
  { sample_snippet with code := "def parse(path): ...", path := "src/b.py" }

/-- Witness for C5: concrete double write with a stub single-vector
embedder ends with one stored point. -/
theorem vector_point_identity_witness :
    (sample_snippet_reingested.title = sample_snippet.title ∧
      sample_snippet_reingested.description = sample_snippet.description ∧
      (fun _ => [[(7 : Int)]] : List String → List Vec)
          [_embedding_input sample_snippet] = [[(7 : Int)]]) ∧
      (_point_id (_embedding_input sample_snippet_reingested) =
          _point_id (_embedding_input sample_snippet) ∧
        ∃ pts,
          (write (fun _ => [[(7 : Int)]]) 64
              (write (fun _ => [[(7 : Int)]]) 64 ⟨Option.none⟩ [sample_snippet]).2
              [sample_snippet_reingested]).2.collection = Option.some pts ∧
            pts.length = 1) :=
  ⟨⟨rfl, rfl, rfl⟩,
    vector_point_identity sample_snippet sample_snippet_reingested
      (fun _ => [[(7 : Int)]]) (fun _ => [[(7 : Int)]]) 64 64 [(7 : Int)] [(7 : Int)]
      rfl rfl rfl rfl⟩

end VectorWriter

namespace VectorReader

/-! Embedding of the completed-ingest discovery cascade of
`SnippetVectorReader` (src/vectordb/reader.py):
`_list_completed_ingest_ids` and its three strategies
(`_facet_ingest_ids`, `_group_ingest_ids`, `_scroll_ingest_ids`).

The qdrant client is external; it enters the model as `ClientBehavior`:
what `client.facet` / `client.query_points_groups` do (return values or
raise), and the successive pages the scroll API serves (`scroll_pages`,
successive `offset` tokens modelled by list position; the requested
`batch_size` only shapes how the external index paginates, which is
already captured by the page list).  Python exceptions are the explicit
`Except.error` results; a strategy helper catches them all
(`AttributeError` via its dedicated `except` arm, everything else via the
logged arm) and returns `[]`, which is what the embedding's `error` match
arm does. -/

inductive PyExc where
  | attributeError
  | typeError
  | otherError
deriving DecidableEq, Repr

/-- A scrolled point's payload, reduced to the one field the discovery
scan reads (`payload.get("ingest_id")`). -/
structure ScrollPayload where
  ingest_id : Option String
deriving DecidableEq, Repr

/-- The external index behaviour visible to the cascade. -/
structure ClientBehavior where
  facet_result : Except PyExc (List (Option String))
  group_result : Except PyExc (List (Option String))
  scroll_pages : List (List ScrollPayload)
deriving Repr

/-- Python truthiness filter used by all three strategies (`if hit.value`,
`if group_id`, `if not ingest_id: continue`): `None` and the empty string
are falsy; `str(…)` on an already-string value is the identity. -/
def truthy_str : Option String → Option String
  | Option.none => Option.none
  | Option.some s => if s.isEmpty then Option.none else Option.some s

/-- `_facet_ingest_ids`: harvest truthy `hit.value`s; any raised exception
(`AttributeError` arm or the logged generic arm) yields `[]`. -/
def _facet_ingest_ids (client : ClientBehavior) (_limit : Int) : List String :=
  match client.facet_result with
  | Except.ok hits => hits.filterMap truthy_str
  | Except.error _ => []

/-- `_group_ingest_ids`: harvest truthy `group_id`s; any raised exception
yields `[]`. -/
def _group_ingest_ids (client : ClientBehavior) (_limit : Int) : List String :=
  match client.group_result with
  | Except.ok groups => groups.filterMap truthy_str
  | Except.error _ => []

/-- The `for payload in points:` body of `_scroll_ingest_ids`: skip falsy
ids, skip already-seen ids, otherwise append and record as seen; return
early (third component `true`) once `0 < limit <= len(ingest_ids)`. -/
def collect_page (limit : Int) :
    List ScrollPayload → List String → List String →
      List String × List String × Bool
  | [], ingest_ids, seen => (ingest_ids, seen, false)
  | payload :: rest, ingest_ids, seen =>
    match truthy_str payload.ingest_id with
    | Option.none => collect_page limit rest ingest_ids seen
    | Option.some ident =>
      if ident ∈ seen then collect_page limit rest ingest_ids seen
      else
        let ingest_ids' := ingest_ids ++ [ident]
        if 0 < limit ∧ limit ≤ (ingest_ids'.length : Int) then
          (ingest_ids', ident :: seen, true)
        else collect_page limit rest ingest_ids' (ident :: seen)

/-- The `while True:` page loop of `_scroll_ingest_ids`: stop on an empty
page (`if not points: break`), stop after the in-page early return, or
continue to the next page until the index reports no further page
(`if not next_page: break` — i.e. the page list is exhausted). -/
def _scroll_ingest_ids_go (limit : Int) :
    List (List ScrollPayload) → List String → List String → List String
  | [], ingest_ids, _ => ingest_ids
  | page :: rest, ingest_ids, seen =>
    if page.isEmpty then ingest_ids
    else
      match collect_page limit page ingest_ids seen with
      | (ids', _, true) => ids'
      | (ids', seen', false) => _scroll_ingest_ids_go limit rest ids' seen'

def _scroll_ingest_ids (client : ClientBehavior) (limit : Int) : List String :=
  _scroll_ingest_ids_go limit client.scroll_pages [] []

/-- `_list_completed_ingest_ids`: floor non-positive limits to 100, then
cascade facet → group → scroll, falling through on an empty result
(`if ingest_ids: return ingest_ids`). -/
def _list_completed_ingest_ids (client : ClientBehavior) (limit : Int) :
    List String :=
  let limit := if limit ≤ 0 then 100 else limit
  let ingest_ids := _facet_ingest_ids client limit
  if !ingest_ids.isEmpty then ingest_ids
  else
    let ingest_ids := _group_ingest_ids client limit
    if !ingest_ids.isEmpty then ingest_ids
    else _scroll_ingest_ids client limit

/-- Follows the spec's words, not the source (refinement target): the
distinct truthy `ingestId` values over the scrolled pages, in first-seen
page order. -/
def spec_distinct_ids_go : List String → List String → List String
  | [], _ => []
  | id :: ids, seen =>
    if id ∈ seen then spec_distinct_ids_go ids seen
    else id :: spec_distinct_ids_go ids (id :: seen)

/-- Follows the spec's words, not the source (refinement target). -/
def spec_distinct_ids (pages : List (List ScrollPayload)) : List String :=
  spec_distinct_ids_go
    (pages.flatten.filterMap (fun p => truthy_str p.ingest_id)) []

/-- Page-free form of the scroll scan: the same skip/append/early-stop
steps over a flat id list. -/
def collect_ids (limit : Int) :
    List String → List String → List String → List String
  | [], ingest_ids, _ => ingest_ids
  | id :: rest, ingest_ids, seen =>
    if id ∈ seen then collect_ids limit rest ingest_ids seen
    else
      let ingest_ids' := ingest_ids ++ [id]
      if 0 < limit ∧ limit ≤ (ingest_ids'.length : Int) then ingest_ids'
      else collect_ids limit rest ingest_ids' (id :: seen)

/-- A page scan that hits the limit early ends the flat scan with the same
result, whatever ids would have followed. -/
theorem collect_page_stop (limit : Int) :
    ∀ (ps : List ScrollPayload) ids seen ids' seen' (more : List String),
      collect_page limit ps ids seen = (ids', seen', true) →
      collect_ids limit ((ps.filterMap (fun p => truthy_str p.ingest_id)) ++ more)
        ids seen = ids' := by
  intro ps
  induction ps with
  | nil =>
    intro ids seen ids' seen' more hcp
    simp [collect_page] at hcp
  | cons payload rest ih =>
    intro ids seen ids' seen' more hcp
    simp only [collect_page] at hcp
    cases ht : truthy_str payload.ingest_id with
    | none =>
      simp only [ht] at hcp
      simp only [List.filterMap_cons, ht]
      exact ih ids seen ids' seen' more hcp
    | some ident =>
      simp only [ht] at hcp
      simp only [List.filterMap_cons, ht, List.cons_append]
      by_cases hseen : ident ∈ seen
      · rw [if_pos hseen] at hcp
        simp only [collect_ids, if_pos hseen]
        exact ih ids seen ids' seen' more hcp
      · rw [if_neg hseen] at hcp
        by_cases hstop : 0 < limit ∧ limit ≤ ((ids ++ [ident]).length : Int)
        · rw [if_pos hstop] at hcp
          simp only [Prod.mk.injEq] at hcp
          simp only [collect_ids, if_neg hseen, if_pos hstop]
          exact hcp.1
        · rw [if_neg hstop] at hcp
          simp only [collect_ids, if_neg hseen, if_neg hstop]
          exact ih (ids ++ [ident]) (ident :: seen) ids' seen' more hcp

/-- A page scan that does not hit the limit leaves the flat scan to
continue on the remaining ids with the page's accumulator and seen-set. -/
theorem collect_page_cont (limit : Int) :
    ∀ (ps : List ScrollPayload) ids seen ids' seen' (more : List String),
      collect_page limit ps ids seen = (ids', seen', false) →
      collect_ids limit ((ps.filterMap (fun p => truthy_str p.ingest_id)) ++ more)
        ids seen = collect_ids limit more ids' seen' := by
  intro ps
  induction ps with
  | nil =>
    intro ids seen ids' seen' more hcp
    simp only [collect_page, Prod.mk.injEq] at hcp
    rw [List.filterMap_nil, List.nil_append, hcp.1, hcp.2.1]
  | cons payload rest ih =>
    intro ids seen ids' seen' more hcp
    simp only [collect_page] at hcp
    cases ht : truthy_str payload.ingest_id with
    | none =>
      simp only [ht] at hcp
      simp only [List.filterMap_cons, ht]
      exact ih ids seen ids' seen' more hcp
    | some ident =>
      simp only [ht] at hcp
      simp only [List.filterMap_cons, ht, List.cons_append]
      by_cases hseen : ident ∈ seen
      · rw [if_pos hseen] at hcp
        simp only [collect_ids, if_pos hseen]
        exact ih ids seen ids' seen' more hcp
      · rw [if_neg hseen] at hcp
        by_cases hstop : 0 < limit ∧ limit ≤ ((ids ++ [ident]).length : Int)
        · rw [if_pos hstop] at hcp
          simp at hcp
        · rw [if_neg hstop] at hcp
          simp only [collect_ids, if_neg hseen, if_neg hstop]
          exact ih (ids ++ [ident]) (ident :: seen) ids' seen' more hcp

/-- The scroll page loop equals the flat scan over the concatenated pages,
provided only the final page can be empty (a real paginated index yields
an empty page only at the end). -/
theorem scroll_go_collect_ids (limit : Int) :
    ∀ (pages : List (List ScrollPayload)) ids seen,
      (∀ p ∈ pages.dropLast, p ≠ []) →
      _scroll_ingest_ids_go limit pages ids seen =
        collect_ids limit
          (pages.flatten.filterMap (fun p => truthy_str p.ingest_id)) ids seen := by
  intro pages
  induction pages with
  | nil => intro ids seen _; rfl
  | cons page rest ih =>
    intro ids seen hne
    simp only [_scroll_ingest_ids_go, List.flatten_cons, List.filterMap_append]
    by_cases hpage : page.isEmpty
    · rw [if_pos hpage]
      have hpage' : page = [] := List.isEmpty_iff.mp hpage
      cases hrest : rest with
      | nil =>
        subst hpage'
        subst hrest
        simp [collect_ids]
      | cons r rs =>
        exfalso
        apply hne page ?_ hpage'
        rw [hrest]
        simp [List.dropLast]
    · rw [if_neg hpage]
      cases hres : collect_page limit page ids seen with
      | mk ids' tail =>
        cases tail with
        | mk seen' stop =>
          cases stop with
          | true =>
            exact (collect_page_stop limit page ids seen ids' seen'
              (rest.flatten.filterMap (fun p => truthy_str p.ingest_id)) hres).symm
          | false =>
            rw [collect_page_cont limit page ids seen ids' seen'
              (rest.flatten.filterMap (fun p => truthy_str p.ingest_id)) hres]
            apply ih
            intro p hp
            apply hne p
            cases rest with
            | nil => simp at hp
            | cons r rs =>
              simp only [List.dropLast_cons₂, List.mem_cons]
              right
              exact hp

/-- The flat scan is first-seen deduplication truncated at the limit. -/
theorem collect_ids_spec (limit : Int) (hl : 0 < limit) :
    ∀ (l : List String) ids seen, (ids.length : Int) < limit →
      collect_ids limit l ids seen =
        ids ++ (spec_distinct_ids_go l seen).take (limit.toNat - ids.length) := by
  intro l
  induction l with
  | nil => intro ids seen _; simp [collect_ids, spec_distinct_ids_go]
  | cons id rest ih =>
    intro ids seen hlen
    simp only [collect_ids, spec_distinct_ids_go]
    by_cases hseen : id ∈ seen
    · rw [if_pos hseen, if_pos hseen]
      exact ih ids seen hlen
    · rw [if_neg hseen, if_neg hseen]
      by_cases hstop : 0 < limit ∧ limit ≤ ((ids ++ [id]).length : Int)
      · rw [if_pos hstop]
        have : limit.toNat - ids.length = 1 := by
          obtain ⟨_, h2⟩ := hstop
          simp only [List.length_append, List.length_cons, List.length_nil] at h2
          omega
        rw [this]
        simp
      · rw [if_neg hstop]
        have hlt : ((ids ++ [id]).length : Int) < limit := by
          push_neg at hstop
          have := hstop hl
          simp only [List.length_append, List.length_cons, List.length_nil] at this ⊢
          omega
        rw [ih (ids ++ [id]) (id :: seen) hlt]
        have : limit.toNat - ids.length = (limit.toNat - (ids ++ [id]).length) + 1 := by
          simp only [List.length_append, List.length_cons, List.length_nil]
          omega
        rw [this]
        simp [List.take_succ_cons]

/-- C6: Reader discovery cascade — when the facet strategy raises (e.g.
`AttributeError`) and the grouped-query strategy raises, the scroll
strategy decides the result: it returns the distinct truthy `ingest_id`
values in first-seen page order, cut off after `limit` of them, without
raising; in particular the result is empty exactly when the scroll finds
no ids at all. -/
theorem reader_discovery_cascade (client : ClientBehavior) (limit : Int)
    (e1 e2 : PyExc)
    (hfacet : client.facet_result = Except.error e1)
    (hgroup : client.group_result = Except.error e2)
    (hpages : ∀ p ∈ client.scroll_pages.dropLast, p ≠ [])
    (hlim : 0 < limit) :
    _list_completed_ingest_ids client limit =
      (spec_distinct_ids client.scroll_pages).take limit.toNat ∧
      (_list_completed_ingest_ids client limit = [] ↔
        spec_distinct_ids client.scroll_pages = []) := by
  have hf : _facet_ingest_ids client limit = [] := by
    unfold _facet_ingest_ids
    rw [hfacet]
  have hg : _group_ingest_ids client limit = [] := by
    unfold _group_ingest_ids
    rw [hgroup]
  have hmain : _list_completed_ingest_ids client limit =
      (spec_distinct_ids client.scroll_pages).take limit.toNat := by
    unfold _list_completed_ingest_ids
    have hlimit_if : (if limit ≤ 0 then (100 : Int) else limit) = limit :=
      if_neg (by omega)
    rw [hlimit_if]
    simp only [hf, hg, List.isEmpty_nil, Bool.not_true, Bool.false_eq_true, if_false]
    unfold _scroll_ingest_ids
    rw [scroll_go_collect_ids limit client.scroll_pages [] [] hpages]
    rw [collect_ids_spec limit hlim _ [] [] (by simpa using hlim)]
    simp [spec_distinct_ids]
  refine ⟨hmain, ?_⟩
  rw [hmain]
  constructor
  · intro h
    cases hsd : spec_distinct_ids client.scroll_pages with
    | nil => rfl
    | cons a as =>
      rw [hsd] at h
      cases hn : limit.toNat with
      | zero => omega
      | succ k =>
        rw [hn] at h
        simp [List.take_succ_cons] at h
  · intro h
    rw [h]
    simp

/-- The stub index of the spec's concrete scenario: facet raises
`AttributeError`, grouping raises a generic error, and the scroll serves
two distinct ingest ids on page one and an empty page two. -/
def sample_client : ClientBehavior :=
  { facet_result := Except.error PyExc.attributeError
    group_result := Except.error PyExc.otherError
    scroll_pages := [[⟨Option.some "job-a"⟩, ⟨Option.some "job-b"⟩], []] }

/-- Witness for C6 at the spec's concrete scenario (`limit = 10`). -/
theorem reader_discovery_cascade_witness :
    (sample_client.facet_result = Except.error PyExc.attributeError ∧
      sample_client.group_result = Except.error PyExc.otherError ∧
      (∀ p ∈ sample_client.scroll_pages.dropLast, p ≠ []) ∧ (0 : Int) < 10) ∧
      (_list_completed_ingest_ids sample_client 10 =
        (spec_distinct_ids sample_client.scroll_pages).take (10 : Int).toNat ∧
        (_list_completed_ingest_ids sample_client 10 = [] ↔
          spec_distinct_ids sample_client.scroll_pages = [])) :=
  ⟨⟨rfl, rfl, by decide, by decide⟩,
    reader_discovery_cascade sample_client 10 PyExc.attributeError PyExc.otherError
      rfl rfl (by decide) (by decide)⟩

example : _list_completed_ingest_ids sample_client 10 = ["job-a", "job-b"] := by
  decide

example : _list_completed_ingest_ids sample_client 1 = ["job-a"] := by
  decide

end VectorReader

namespace Orchestrator

/-! Embedding of `ExtractionPipeline` (src/orchestration/extraction.py).

Two views of `_process_files` are embedded, one per verified property:

* For failure isolation, the run's functional outcome: the extraction
  collaborator is external and enters as `outcome`, assigning each file
  unit either a returned boolean or a raised exception;
  `asyncio.gather` returns per-unit results in input order, and each
  unit's result depends only on its own outcome.  Error-list entries are
  appended at completion time, so their order is scheduler-dependent; the
  model fixes input order, which the claim (a list keyed by relative
  path) does not distinguish.
* For the concurrency bound, the scheduler-visible behaviour of the
  `async with semaphore:` discipline as a step relation on task states
  (an extraction call runs only while holding one of the
  `max_concurrency` permits). -/

/-- The two fields of `FileData` that `_process_single_file` passes to the
extractor (src/utils/file_loader.py defines the full record). -/
structure FileData where
  relative_path : String
  content : String
deriving DecidableEq, Repr

/-- What one extraction call does for a given unit: return a boolean, or
raise (collaborator error, timeout, bad response shape — all surface as a
raised exception whose string is `msg`). -/
inductive ExtractOutcome where
  | ok (success : Bool)
  | raises (message : String)
deriving DecidableEq, Repr

/-- `_process_single_file`: a raised exception is caught, recorded as
`f"{file_data.relative_path}: {exc}"`, and the unit reports `False`;
a normal return reports the extractor's boolean with no error entry. -/
def _process_single_file (outcome : FileData → ExtractOutcome) (fd : FileData) :
    Bool × Option String :=
  match outcome fd with
  | .ok b => (b, Option.none)
  | .raises msg => (false, Option.some (fd.relative_path ++ ": " ++ msg))

/-- The `successful`/`failed` counters of the stats dict (`duration` and
snippet totals are wall-clock/storage bookkeeping outside the claims). -/
structure RunStats where
  successful : Nat
  failed : Nat
deriving DecidableEq, Repr

/-- `_process_files`: gather every unit's result, collect the error
entries, and report `successful = sum(1 for r in results if r)` and
`failed = len(files_data) - successful`. -/
def _process_files (outcome : FileData → ExtractOutcome) (files : List FileData) :
    RunStats × List String :=
  let results := files.map (_process_single_file outcome)
  let successful := (results.filter (fun r => r.1 = true)).length
  ({ successful := successful, failed := files.length - successful },
    results.filterMap (fun r => r.2))

/-- C8: Orchestrator failure isolation — a raising unit is caught and
recorded in the error list keyed by its relative path and counted as a
failure, every unit is attempted and contributes exactly its own result
(a raising unit never disturbs a sibling's contribution), and
`successful + failed` always equals the number of units. -/
theorem orchestrator_failure_isolation (outcome : FileData → ExtractOutcome)
    (files : List FileData) :
    ((_process_files outcome files).1.successful +
        (_process_files outcome files).1.failed = files.length) ∧
      ((_process_files outcome files).2 = files.filterMap (fun fd =>
        match outcome fd with
        | ExtractOutcome.raises msg =>
            Option.some (fd.relative_path ++ ": " ++ msg)
        | ExtractOutcome.ok _ => Option.none)) ∧
      ((_process_files outcome files).1.successful =
        (files.filter (fun fd => (_process_single_file outcome fd).1)).length) := by
  refine ⟨?_, ?_, ?_⟩
  · have hle : ((files.map (_process_single_file outcome)).filter
        (fun r => r.1 = true)).length ≤ files.length := by
      calc ((files.map (_process_single_file outcome)).filter
            (fun r => r.1 = true)).length
          ≤ (files.map (_process_single_file outcome)).length :=
            List.length_filter_le _ _
        _ = files.length := List.length_map _ _
    show ((files.map (_process_single_file outcome)).filter
        (fun r => r.1 = true)).length +
      (files.length - ((files.map (_process_single_file outcome)).filter
        (fun r => r.1 = true)).length) = files.length
    omega
  · show (files.map (_process_single_file outcome)).filterMap (fun r => r.2) = _
    rw [List.filterMap_map]
    congr 1
    funext fd
    cases houtcome : outcome fd with
    | ok b => simp [Function.comp, _process_single_file, houtcome]
    | raises msg => simp [Function.comp, _process_single_file, houtcome]
  · show ((files.map (_process_single_file outcome)).filter
        (fun r => r.1 = true)).length = _
    rw [List.filter_map]
    rw [List.length_map]
    apply congrArg
    apply List.filter_congr
    intro fd _
    simp [Function.comp]

/-- Phase of one `process_with_progress` task in `_process_files`:
created by `asyncio.gather` but not yet inside `async with semaphore`
(`waiting`), inside the `async with` block with its extraction call in
flight (`running`), or past the block with its permit returned (`done`). -/
inductive TaskPhase where
  | waiting
  | running
  | done
deriving DecidableEq, Repr

/-- Scheduler-visible state of one run: permits left in
`asyncio.Semaphore(max_concurrency)` plus each task's phase. -/
structure SemState where
  available : Nat
  tasks : List TaskPhase
deriving DecidableEq, Repr

/-- The two transitions the semaphore discipline of
`process_with_progress` allows: entering `async with semaphore:` consumes
a permit (possible only when one is available — `available = n + 1`), and
completion of `await self._process_single_file(...)` leaves the block and
returns the permit, whatever the call's outcome. -/
inductive SemStep : SemState → SemState → Prop where
  | acquire (n : Nat) (tasks : List TaskPhase) (i : Nat) (hi : i < tasks.length)
      (hw : tasks[i] = TaskPhase.waiting) :
      SemStep ⟨n + 1, tasks⟩ ⟨n, tasks.set i TaskPhase.running⟩
  | release (n : Nat) (tasks : List TaskPhase) (i : Nat) (hi : i < tasks.length)
      (hr : tasks[i] = TaskPhase.running) :
      SemStep ⟨n, tasks⟩ ⟨n + 1, tasks.set i TaskPhase.done⟩

/-- States reachable from the start of a run: a fresh
`Semaphore(max_concurrency)` and one not-yet-started task per file unit. -/
inductive Reachable (max_concurrency total_files : Nat) : SemState → Prop where
  | init : Reachable max_concurrency total_files
      ⟨max_concurrency, List.replicate total_files TaskPhase.waiting⟩
  | step {s s' : SemState} : Reachable max_concurrency total_files s →
      SemStep s s' → Reachable max_concurrency total_files s'

/-- Number of extraction calls currently in flight. -/
def running_count (s : SemState) : Nat :=
  (s.tasks.filter (fun t => t = TaskPhase.running)).length

theorem running_filter_set_running (tasks : List TaskPhase) :
    ∀ i (hi : i < tasks.length), tasks[i] = TaskPhase.waiting →
      ((tasks.set i TaskPhase.running).filter
          (fun t => t = TaskPhase.running)).length =
        (tasks.filter (fun t => t = TaskPhase.running)).length + 1 := by
  induction tasks with
  | nil => intro i hi _; simp at hi
  | cons t ts ih =>
    intro i hi hw
    cases i with
    | zero =>
      simp only [List.getElem_cons_zero] at hw
      subst hw
      simp [List.set]
    | succ j =>
      simp only [List.getElem_cons_succ] at hw
      simp only [List.length_cons] at hi
      have hj := ih j (by omega) hw
      simp only [List.set]
      cases ht : decide (t = TaskPhase.running) <;>
        simp [List.filter_cons, ht] <;> omega

theorem running_filter_set_done (tasks : List TaskPhase) :
    ∀ i (hi : i < tasks.length), tasks[i] = TaskPhase.running →
      ((tasks.set i TaskPhase.done).filter
          (fun t => t = TaskPhase.running)).length + 1 =
        (tasks.filter (fun t => t = TaskPhase.running)).length := by
  induction tasks with
  | nil => intro i hi _; simp at hi
  | cons t ts ih =>
    intro i hi hr
    cases i with
    | zero =>
      simp only [List.getElem_cons_zero] at hr
      subst hr
      simp [List.set]
    | succ j =>
      simp only [List.getElem_cons_succ] at hr
      simp only [List.length_cons] at hi
      have hj := ih j (by omega) hr
      simp only [List.set]
      cases ht : decide (t = TaskPhase.running) <;>
        simp [List.filter_cons, ht] <;> omega

theorem running_filter_replicate_waiting (n : Nat) :
    ((List.replicate n TaskPhase.waiting).filter
        (fun t => t = TaskPhase.running)).length = 0 := by
  induction n with
  | zero => rfl
  | succ k ih =>
    rw [List.replicate_succ, List.filter_cons]
    simp [ih]

/-- The semaphore invariant: in-flight calls plus available permits always
equal `max_concurrency`. -/
theorem running_plus_available (max_concurrency total_files : Nat) (s : SemState)
    (h : Reachable max_concurrency total_files s) :
    running_count s + s.available = max_concurrency := by
  induction h with
  | init =>
    unfold running_count
    simp only [running_filter_replicate_waiting]
    omega
  | step hreach hstep ih =>
    cases hstep with
    | acquire n tasks i hi hw =>
      unfold running_count at ih ⊢
      simp only at ih ⊢
      rw [running_filter_set_running tasks i hi hw]
      omega
    | release n tasks i hi hr =>
      unfold running_count at ih ⊢
      simp only at ih ⊢
      rw [← running_filter_set_done tasks i hi hr] at ih
      omega

/-- C9: Orchestrator concurrency bound — in every state reachable under
the `async with semaphore` discipline of `_process_files`, at most
`max_concurrency` extraction calls are in flight. -/
theorem orchestrator_concurrency_bound (max_concurrency total_files : Nat)
    (s : SemState) (h : Reachable max_concurrency total_files s) :
    running_count s ≤ max_concurrency := by
  have := running_plus_available max_concurrency total_files s h
  omega

/-- Witness for C9: with `max_concurrency = 2` and three file units, the
state after one acquire is reachable and respects the bound. -/
theorem orchestrator_concurrency_bound_witness :
    Reachable 2 3 ⟨1, [TaskPhase.running, TaskPhase.waiting, TaskPhase.waiting]⟩ ∧
      running_count ⟨1, [TaskPhase.running, TaskPhase.waiting, TaskPhase.waiting]⟩ ≤ 2 :=
  have hreach : Reachable 2 3
      ⟨1, [TaskPhase.running, TaskPhase.waiting, TaskPhase.waiting]⟩ :=
    Reachable.step Reachable.init
      (SemStep.acquire 1 (List.replicate 3 TaskPhase.waiting) 0 (by decide) (by decide))
  ⟨hreach, orchestrator_concurrency_bound 2 3 _ hreach⟩

end Orchestrator
